import Mathlib

/-!
Verification of the tree-construction core of `huffman_arpeggio`
(`huffman_arpeggio/core.py`): padding calculation, n-ary Huffman merge,
and derivation of the code-word map.

The Python source is embedded shallowly:

* the `Node` class becomes an inductive type with `count`, `target`,
  `children` projections;
* Python `int` becomes `Int`; `math.ceil` of the float division in
  `calculate_padding` becomes the exact rational ceiling, written with
  integer floor division (`Int.fdiv`);
* the `heapq` priority queue is modelled as a pool of nodes from which
  `heappop` removes a least-`count` element (the first one, among equal
  counts: `Node.__lt__` compares counts only, so the source's tie order
  among equal weights is an implementation detail of the binary heap and
  is unspecified at the level of the data; every theorem below is
  invariant under that choice);
* uncaught Python exceptions (`ValueError` for duplicate symbols,
  `ZeroDivisionError` from the padding formula when `num_branches = 1`,
  `KeyError` / `IndexError` in the traversal) become `Except` / `Option`
  results;
* the `while len(nodes) > 1` merge loop, which does not terminate when
  `num_branches < 2` and more than one node is present, is run with fuel
  `nodes.length` (proved sufficient whenever `num_branches ≥ 2`); a
  `none` result of `merge_nodes` means the source loops forever;
* the Python dict built by `generate_encoding_map_with_count` becomes an
  association list written in insertion order, with `dict_set` giving the
  exact dict-assignment semantics (replace in place, else append).
-/

/-- The `Node` class of `core.py`: an occurrence count, an optional target,
and an ordered list of children (`children=None` defaults to `[]`). -/
inductive Node : Type where
  | mk (count : Int) (target : Option String) (children : List Node)

/-- Projection for the `count` attribute. -/
def Node.count : Node → Int
  | .mk c _ _ => c

/-- Projection for the `target` attribute. -/
def Node.target : Node → Option String
  | .mk _ t _ => t

/-- Projection for the `children` attribute. -/
def Node.children : Node → List Node
  | .mk _ _ ch => ch

/-- The uncaught Python exceptions that `core.py` can raise while building
a tree: the explicit `ValueError` for duplicate symbols, and the
`ZeroDivisionError` coming from `calculate_padding` when
`num_branches = 1`. -/
inductive PyError : Type where
  | valueError
  | zeroDivisionError
  deriving DecidableEq

/-- Exact value of Python's `math.ceil(a / b)` for integers `a`, `b` with
`b ≠ 0`: the ceiling of the rational `a / b`, computed as `-⌊-a / b⌋`
with integer floor division. -/
def ceil_div (a b : Int) : Int := -((-a).fdiv b)

/-- `calculate_padding` from `core.py`.  Returns
`(num_branch_points, num_padding)`; raises `ZeroDivisionError` when
`num_branches - 1 = 0` (the division in the source). -/
def calculate_padding (num_elements num_branches : Int) :
    Except PyError (Int × Int) :=
  if num_branches - 1 = 0 then
    Except.error PyError.zeroDivisionError
  else
    let num_branch_points := ceil_div (num_elements - 1) (num_branches - 1)
    Except.ok (num_branch_points,
      1 + (num_branches - 1) * num_branch_points - num_elements)

/-- Model of `heappop` on the node pool: removes the first node of least
`count` (`Node.__lt__` orders nodes by `count` alone), returning it and
the remaining pool; `none` on the empty pool. -/
def heappop : List Node → Option (Node × List Node)
  | [] => none
  | x :: xs =>
    match heappop xs with
    | none => some (x, [])
    | some (m, rest) =>
      if x.count ≤ m.count then some (x, xs) else some (m, x :: rest)

/-- `k` successive `heappop`s, returning the popped nodes in pop order
together with the remaining pool. -/
def popK : Nat → List Node → (List Node × List Node)
  | 0, l => ([], l)
  | k + 1, l =>
    match heappop l with
    | none => ([], l)
    | some (x, rest) =>
      let p := popK k rest
      (x :: p.1, p.2)

/-- Sum of the top-level `count` fields of a pool of nodes. -/
def countSum (l : List Node) : Int := (l.map Node.count).sum

/-- One iteration of the `while len(nodes) > 1` body of `merge_nodes`:
pop `min(num_branches, len(nodes))` nodes, build the merged node whose
count is their sum and whose children are the popped nodes in pop order,
and push it back. -/
def mergeStep (nodes : List Node) (num_branches : Nat) : List Node :=
  let p := popK (min num_branches nodes.length) nodes
  p.2 ++ [Node.mk (countSum p.1) none p.1]

/-- The merge loop of `merge_nodes`, run with explicit fuel (number of
iterations still allowed).  `none` means the fuel ran out, i.e. the
source's loop does not finish within that many iterations. -/
def mergeLoop : Nat → List Node → Nat → Option (List Node)
  | fuel, nodes, num_branches =>
    if nodes.length > 1 then
      match fuel with
      | 0 => none
      | fuel' + 1 => mergeLoop fuel' (mergeStep nodes num_branches) num_branches
    else
      some nodes

/-- `merge_nodes` from `core.py`: run the merge loop, then return
`nodes[0] if nodes else None`.  Fuel `nodes.length` is proved sufficient
whenever `num_branches ≥ 2`; an outer `none` result means the source
loops forever (possible only for `num_branches < 2`). -/
def merge_nodes (nodes : List Node) (num_branches : Nat) :
    Option (Option Node) :=
  (mergeLoop nodes.length nodes num_branches).map List.head?

/-- `build_huffman_tree` from `core.py`.  The frequency table is the
Python dict `count_dict`, written as its insertion-ordered association
list (a Python dict has pairwise-distinct keys).  The result is `none`
when the source diverges, otherwise the raised exception or the returned
optional root. -/
def build_huffman_tree (count_dict : List (String × Int))
    (symbols : List String) : Option (Except PyError (Option Node)) :=
  if symbols.length ≠ symbols.dedup.length then
    some (Except.error PyError.valueError)
  else
    match calculate_padding (count_dict.length : Int) (symbols.length : Int) with
    | Except.error e => some (Except.error e)
    | Except.ok (_num_branch_points, num_padding) =>
      let nodes :=
        count_dict.map (fun tc => Node.mk tc.2 (some tc.1) []) ++
          List.replicate num_padding.toNat (Node.mk 0 none [])
      (merge_nodes nodes symbols.length).map (fun r => Except.ok r)

/-- The encoding map: a Python dict from code words (tuples of symbols)
to `(target, count)` pairs, written as its insertion-ordered association
list. -/
abbrev EncMap := List (List String × (String × Int))

/-- Python dict assignment `m[k] = v`: replace the value in place when the
key is present (its position is kept), otherwise append the new entry. -/
def dict_set (m : EncMap) (k : List String) (v : String × Int) : EncMap :=
  if k ∈ m.map Prod.fst then
    m.map (fun e => if e.1 = k then (k, v) else e)
  else
    m ++ [(k, v)]

mutual

/-- The inner `traverse` of `generate_encoding_map_with_count`: record an
entry when the node carries a target (`count_dict[node.target]` raises
`KeyError`, modelled by `none`, when the target is not a key), then
recurse into the children.  `none` propagates a `KeyError` or
`IndexError`. -/
def traverseNode (symbols : List String) (count_dict : List (String × Int))
    (node : Node) (path : List String) (encoding_map : EncMap) :
    Option EncMap :=
  match node with
  | .mk _ tgt children =>
    match
      (match tgt with
       | some t =>
         match List.lookup t count_dict with
         | some c => some (dict_set encoding_map path (t, c))
         | none => none
       | none => some encoding_map)
    with
    | none => none
    | some m1 => traverseChildren symbols count_dict children 0 path m1

/-- The `for i, child in enumerate(node.children)` loop of `traverse`:
`symbols[i]` raises `IndexError`, modelled by `none`, when the index is
out of range. -/
def traverseChildren (symbols : List String)
    (count_dict : List (String × Int)) (children : List Node) (i : Nat)
    (path : List String) (encoding_map : EncMap) : Option EncMap :=
  match children with
  | [] => some encoding_map
  | c :: rest =>
    match symbols[i]? with
    | none => none
    | some s =>
      match traverseNode symbols count_dict c (path ++ [s]) encoding_map with
      | none => none
      | some m1 => traverseChildren symbols count_dict rest (i + 1) path m1

end

/-- `generate_encoding_map_with_count` from `core.py`: traverse from the
root with the empty path and an empty map. -/
def generate_encoding_map_with_count (root : Node) (symbols : List String)
    (count_dict : List (String × Int)) : Option EncMap :=
  traverseNode symbols count_dict root [] []

mutual

/-- All nodes of a tree (the node itself and its descendants), in
depth-first preorder — the order `traverse` visits them. -/
def Node.nodes (n : Node) : List Node :=
  match n with
  | .mk c t ch => .mk c t ch :: nodesList ch

/-- All nodes of a forest, in depth-first preorder. -/
def nodesList (l : List Node) : List Node :=
  match l with
  | [] => []
  | c :: rest => Node.nodes c ++ nodesList rest

end

/-- The targets carried in a tree, in depth-first preorder. -/
def targetsList (n : Node) : List String :=
  (Node.nodes n).filterMap Node.target

/-- The targets carried in a forest, in depth-first preorder. -/
def allTargets (l : List Node) : List String :=
  (nodesList l).filterMap Node.target

mutual

/-- Specification of what `traverse` inserts: the entries contributed by a
tree, in insertion order.  The symbol for child `i` is `symbols.getD i ""`
(equal to `symbols[i]` whenever the index is in range) and the recorded
count is `(List.lookup t count_dict).getD 0` (equal to
`count_dict[t]` whenever the target is a key). -/
def entriesOf (symbols : List String) (count_dict : List (String × Int))
    (n : Node) (path : List String) : EncMap :=
  match n with
  | .mk _ tgt children =>
    (match tgt with
     | some t => [(path, (t, (List.lookup t count_dict).getD 0))]
     | none => []) ++ entriesOfChildren symbols count_dict children 0 path

/-- The entries contributed by the children of a node, the child at list
position `j` being labelled with symbol index `i + j`. -/
def entriesOfChildren (symbols : List String)
    (count_dict : List (String × Int)) (children : List Node) (i : Nat)
    (path : List String) : EncMap :=
  match children with
  | [] => []
  | c :: rest =>
    entriesOf symbols count_dict c (path ++ [symbols.getD i ""]) ++
      entriesOfChildren symbols count_dict rest (i + 1) path

end

/-- Folding Python dict assignment over a list of entries. -/
def insertAll (m : EncMap) (es : EncMap) : EncMap :=
  es.foldl (fun acc e => dict_set acc e.1 e.2) m

/-- Structural well-formedness of the trees the merge engine builds with
branching factor `nb`: initial nodes are childless, and every merged node
carries no target and exactly `nb` children, all well-formed. -/
inductive Good (nb : Nat) : Node → Prop where
  | leaf : ∀ c t, Good nb (Node.mk c t [])
  | branch : ∀ c children, children.length = nb →
      (∀ x, x ∈ children → Good nb x) → Good nb (Node.mk c none children)

/-- `CodeLE a b`: the code word `a` is an initial segment of the code word
`b` (what the spec calls one code word being a prefix of another). -/
def CodeLE (a b : List String) : Prop := ∃ s, a ++ s = b

/-- Prefix-freedom of an encoding map: no code word is an initial segment
of a distinct code word of the same map. -/
def AntichainKeys (m : EncMap) : Prop :=
  ∀ e1, e1 ∈ m → ∀ e2, e2 ∈ m → e1.1 ≠ e2.1 → ¬ CodeLE e1.1 e2.1

/-- Every node of the tree is either childless or has exactly `L`
children. -/
def InternalArity (L : Nat) (root : Node) : Prop :=
  ∀ n, n ∈ Node.nodes root → n.children = [] ∨ n.children.length = L

/-- Shape facts making the traversal safe: every node has at most `L`
children, and nodes carrying a target are childless. -/
def ShapeOK (L : Nat) (root : Node) : Prop :=
  ∀ n, n ∈ Node.nodes root →
    n.children.length ≤ L ∧ (n.target.isSome → n.children = [])

/-- Concrete sample frequency table used by the witnesses. -/
def sampleTable : List (String × Int) := [("a", 1), ("b", 2), ("c", 3)]

/-- Concrete sample binary alphabet used by the witnesses. -/
def sampleSymbols : List String := ["0", "1"]

/-- The tree `build_huffman_tree` produces from `sampleTable` over
`sampleSymbols` (checked by definitional evaluation in the witnesses). -/
def sampleRoot : Node :=
  Node.mk 6 none [Node.mk 3 (some "c") [],
    Node.mk 3 none [Node.mk 1 (some "a") [], Node.mk 2 (some "b") []]]

/-- The encoding map generated from `sampleRoot` (checked by definitional
evaluation in the witnesses). -/
def sampleMap : EncMap :=
  [(["0"], ("c", 3)), (["1", "0"], ("a", 1)), (["1", "1"], ("b", 2))]

/-! ### Arithmetic facts about `ceil_div` and `calculate_padding` -/

theorem le_mul_ceil_div {a b : Int} (hb : 0 < b) : a ≤ b * ceil_div a b := by
  unfold ceil_div
  rw [Int.fdiv_eq_ediv _ (le_of_lt hb)]
  have h := Int.ediv_mul_le (-a) (ne_of_gt hb)
  have hc : -a / b * b = b * (-a / b) := mul_comm _ _
  rw [hc] at h
  have hg : b * -(-a / b) = -(b * (-a / b)) := by ring
  rw [hg]
  linarith

theorem mul_pred_ceil_div_lt {a b : Int} (hb : 0 < b) :
    b * (ceil_div a b - 1) < a := by
  unfold ceil_div
  rw [Int.fdiv_eq_ediv _ (le_of_lt hb)]
  have h := Int.lt_ediv_add_one_mul_self (-a) hb
  have h2 : (-a / b + 1) * b = b * (-a / b) + b := by ring
  rw [h2] at h
  have h3 : b * (-(-a / b) - 1) = -(b * (-a / b)) - b := by ring
  rw [h3]
  linarith

theorem ceil_div_nonneg {a b : Int} (ha : 0 ≤ a) (hb : 0 < b) :
    0 ≤ ceil_div a b := by
  rcases lt_or_eq_of_le ha with h | h
  · have hlt : -a < 0 := by omega
    have := Int.fdiv_neg' hlt hb
    unfold ceil_div
    omega
  · rw [← h]
    simp [ceil_div]

theorem ceil_div_neg_one {b : Int} (hb : 2 ≤ b) : ceil_div (-1) b = 0 := by
  unfold ceil_div
  rw [show -(-1 : Int) = 1 by ring, Int.fdiv_eq_ediv _ (by omega),
    Int.ediv_eq_zero_of_lt (by omega) (by omega)]
  rfl

theorem ceil_div_eq_rat_ceil {a b : Int} (hb : 0 < b) :
    ceil_div a b = ⌈(a : ℚ) / (b : ℚ)⌉ := by
  have hbq : (0 : ℚ) < (b : ℚ) := by exact_mod_cast hb
  refine le_antisymm ?_ ?_
  · have h : ((ceil_div a b - 1 : Int) : ℚ) < (a : ℚ) / (b : ℚ) := by
      rw [lt_div_iff₀ hbq]
      have hi := mul_pred_ceil_div_lt (a := a) hb
      have hcast : ((b * (ceil_div a b - 1) : Int) : ℚ) < (a : ℚ) := by
        exact_mod_cast hi
      push_cast at hcast ⊢
      linarith
    have := Int.lt_ceil.mpr h
    omega
  · refine Int.ceil_le.mpr ?_
    rw [div_le_iff₀ hbq]
    have hi := le_mul_ceil_div (a := a) hb
    have hcast : (a : ℚ) ≤ ((b * ceil_div a b : Int) : ℚ) := by exact_mod_cast hi
    push_cast at hcast ⊢
    linarith

theorem calculate_padding_eq {ne nb : Int} (h2 : 2 ≤ nb) :
    calculate_padding ne nb =
      Except.ok (ceil_div (ne - 1) (nb - 1),
        1 + (nb - 1) * ceil_div (ne - 1) (nb - 1) - ne) := by
  unfold calculate_padding
  rw [if_neg (by omega)]

theorem num_padding_nonneg {ne nb : Int} (h1 : 1 ≤ ne) (h2 : 2 ≤ nb) :
    0 ≤ 1 + (nb - 1) * ceil_div (ne - 1) (nb - 1) - ne := by
  have h := le_mul_ceil_div (a := ne - 1) (b := nb - 1) (by omega)
  linarith

/-! ### Heap-pool lemmas -/

theorem heappop_cons_eq (x : Node) (xs : List Node) :
    heappop (x :: xs) =
      match heappop xs with
      | none => some (x, [])
      | some (m, rest) =>
        if x.count ≤ m.count then some (x, xs) else some (m, x :: rest) := rfl

theorem heappop_ne_none {l : List Node} (h : l ≠ []) :
    ∃ p, heappop l = some p := by
  cases l with
  | nil => exact absurd rfl h
  | cons x xs =>
    rw [heappop_cons_eq]
    cases hp : heappop xs with
    | none => exact ⟨_, rfl⟩
    | some p =>
      obtain ⟨m, rest⟩ := p
      dsimp only
      split
      · exact ⟨_, rfl⟩
      · exact ⟨_, rfl⟩

theorem heappop_eq_none {l : List Node} (h : heappop l = none) : l = [] := by
  cases l with
  | nil => rfl
  | cons x xs =>
    obtain ⟨p, hp⟩ := heappop_ne_none (l := x :: xs) (by simp)
    rw [hp] at h
    exact Option.noConfusion h

theorem heappop_perm : ∀ {l : List Node} {x : Node} {r : List Node},
    heappop l = some (x, r) → l.Perm (x :: r) := by
  intro l
  induction l with
  | nil => intro x r h; simp [heappop] at h
  | cons a as ih =>
    intro x r h
    rw [heappop_cons_eq] at h
    cases hp : heappop as with
    | none =>
      rw [hp] at h
      have has : as = [] := heappop_eq_none hp
      injection h with h1
      injection h1 with hx hr
      rw [← hx, ← hr, has]
    | some p =>
      obtain ⟨m, rest⟩ := p
      rw [hp] at h
      dsimp only at h
      split at h
      · injection h with h1
        injection h1 with hx hr
        rw [← hx, ← hr]
      · injection h with h1
        injection h1 with hx hr
        rw [← hx, ← hr]
        exact ((ih hp).cons a).trans (List.Perm.swap m a rest)

theorem popK_perm_length : ∀ (k : Nat) (l : List Node),
    l.Perm ((popK k l).1 ++ (popK k l).2) ∧
      (popK k l).1.length = min k l.length := by
  intro k
  induction k with
  | zero => intro l; simp [popK]
  | succ k ih =>
    intro l
    cases l with
    | nil => simp [popK, heappop]
    | cons a as =>
      obtain ⟨⟨x, r⟩, hp⟩ := heappop_ne_none (l := a :: as) (by simp)
      have hperm := heappop_perm hp
      have hlen : as.length = r.length := by
        have := hperm.length_eq
        simpa using this
      obtain ⟨ih1, ih2⟩ := ih r
      simp only [popK, hp]
      constructor
      · exact hperm.trans (ih1.cons x)
      · simp [ih2]
        omega

/-! ### Node lists, counts and targets under permutation -/

theorem countSum_append (l1 l2 : List Node) :
    countSum (l1 ++ l2) = countSum l1 + countSum l2 := by
  simp [countSum]

theorem countSum_perm {l1 l2 : List Node} (h : l1.Perm l2) :
    countSum l1 = countSum l2 :=
  (h.map Node.count).sum_eq

theorem nodesList_append (l1 l2 : List Node) :
    nodesList (l1 ++ l2) = nodesList l1 ++ nodesList l2 := by
  induction l1 with
  | nil => simp [nodesList]
  | cons c rest ih => simp [nodesList, ih]

theorem allTargets_nil : allTargets [] = [] := rfl

theorem allTargets_cons (n : Node) (l : List Node) :
    allTargets (n :: l) = targetsList n ++ allTargets l := by
  simp [allTargets, targetsList, nodesList]

theorem allTargets_append (l1 l2 : List Node) :
    allTargets (l1 ++ l2) = allTargets l1 ++ allTargets l2 := by
  simp [allTargets, nodesList_append]

theorem targetsList_none (c : Int) (ch : List Node) :
    targetsList (Node.mk c none ch) = allTargets ch := by
  simp [targetsList, Node.nodes, allTargets, Node.target]

theorem targetsList_some (c : Int) (t : String) (ch : List Node) :
    targetsList (Node.mk c (some t) ch) = t :: allTargets ch := by
  simp [targetsList, Node.nodes, allTargets, Node.target]

theorem allTargets_perm {l1 l2 : List Node} (h : l1.Perm l2) :
    (allTargets l1).Perm (allTargets l2) := by
  induction h with
  | nil => simp
  | cons x _ ih =>
    rw [allTargets_cons, allTargets_cons]
    exact ih.append_left (targetsList x)
  | swap x y l =>
    rw [allTargets_cons, allTargets_cons, allTargets_cons, allTargets_cons,
      ← List.append_assoc, ← List.append_assoc]
    exact List.perm_append_comm.append_right _
  | trans _ _ ih1 ih2 => exact ih1.trans ih2

/-! ### One merge step -/

theorem mergeStep_decomp (l : List Node) (nb : Nat) :
    ∃ ps rest, l.Perm (ps ++ rest) ∧ ps.length = min nb l.length ∧
      mergeStep l nb = rest ++ [Node.mk (countSum ps) none ps] := by
  obtain ⟨h1, h2⟩ := popK_perm_length (min nb l.length) l
  refine ⟨(popK (min nb l.length) l).1, (popK (min nb l.length) l).2, h1, ?_, rfl⟩
  rw [h2]
  omega

theorem mergeStep_props {l : List Node} {nb : Nat} (h : nb ≤ l.length) :
    (mergeStep l nb).length + nb = l.length + 1 ∧
    countSum (mergeStep l nb) = countSum l ∧
    (allTargets (mergeStep l nb)).Perm (allTargets l) ∧
    ((∀ n, n ∈ l → Good nb n) → ∀ n, n ∈ mergeStep l nb → Good nb n) := by
  obtain ⟨ps, rest, hperm, hlen, heq⟩ := mergeStep_decomp l nb
  rw [min_eq_left h] at hlen
  have hltot : l.length = ps.length + rest.length := by
    simpa using hperm.length_eq
  refine ⟨?_, ?_, ?_, ?_⟩
  · rw [heq]
    simp only [List.length_append, List.length_singleton]
    omega
  · rw [heq, countSum_append, countSum_perm hperm, countSum_append]
    simp [countSum, Node.count]
    ring
  · rw [heq, allTargets_append]
    have hsingle : allTargets [Node.mk (countSum ps) none ps] = allTargets ps := by
      rw [allTargets_cons, targetsList_none, allTargets_nil, List.append_nil]
    rw [hsingle]
    refine List.Perm.trans ?_ (allTargets_perm hperm.symm)
    rw [allTargets_append]
    exact List.perm_append_comm
  · intro hg n hn
    rw [heq] at hn
    rcases List.mem_append.mp hn with hr | hm
    · exact hg n (hperm.symm.subset (List.mem_append.mpr (Or.inr hr)))
    · rcases List.mem_singleton.mp hm with rfl
      exact Good.branch _ ps hlen (fun x hx =>
        hg x (hperm.symm.subset (List.mem_append.mpr (Or.inl hx))))

/-! ### The merge loop -/

theorem mergeLoop_master {nb : Nat} (h2 : 2 ≤ nb) :
    ∀ (fuel : Nat) (l : List Node), l.length ≤ fuel + 1 →
    (l.length = 0 ∨ ∃ k : Nat, l.length = 1 + (nb - 1) * k) →
    (∀ n, n ∈ l → Good nb n) →
    ∃ res, mergeLoop fuel l nb = some res ∧
      ((res = [] ∧ l = []) ∨
       ∃ r, res = [r] ∧ Good nb r ∧ r.count = countSum l ∧
         (targetsList r).Perm (allTargets l)) := by
  intro fuel
  induction fuel with
  | zero =>
    intro l hfuel hlen hgood
    have : l.length ≤ 1 := hfuel
    rw [mergeLoop]
    rw [if_neg (by omega)]
    refine ⟨l, rfl, ?_⟩
    match l, this with
    | [], _ => exact Or.inl ⟨rfl, rfl⟩
    | [r], _ =>
      refine Or.inr ⟨r, rfl, hgood r (by simp), ?_, ?_⟩
      · simp [countSum]
      · rw [allTargets_cons, allTargets_nil, List.append_nil]
  | succ fuel ih =>
    intro l hfuel hlen hgood
    rw [mergeLoop]
    by_cases hgt : l.length > 1
    · rw [if_pos hgt]
      obtain ⟨k, hk⟩ : ∃ k : Nat, l.length = 1 + (nb - 1) * k := by
        rcases hlen with h0 | hk
        · omega
        · exact hk
      obtain ⟨k', rfl⟩ : ∃ k', k = k' + 1 := by
        refine ⟨k - 1, ?_⟩
        rcases Nat.eq_zero_or_pos k with rfl | hkpos
        · omega
        · omega
      have hknb : l.length = 1 + (nb - 1) * k' + (nb - 1) := by
        rw [hk]
        ring
      have hnble : nb ≤ l.length := by omega
      obtain ⟨hsl, hsc, hst, hsg⟩ := mergeStep_props (l := l) hnble
      have hrec := ih (mergeStep l nb)
        (by omega)
        (Or.inr ⟨k', by omega⟩)
        (hsg hgood)
      obtain ⟨res, hres, hprops⟩ := hrec
      refine ⟨res, hres, ?_⟩
      rcases hprops with ⟨hre, hse⟩ | ⟨r, hr, hgr, hcr, htr⟩
      · exfalso
        have : (mergeStep l nb).length = 0 := by rw [hse]; rfl
        omega
      · refine Or.inr ⟨r, hr, hgr, ?_, ?_⟩
        · rw [hcr, hsc]
        · exact htr.trans hst
    · rw [if_neg hgt]
      refine ⟨l, rfl, ?_⟩
      have : l.length ≤ 1 := by omega
      match l, this with
      | [], _ => exact Or.inl ⟨rfl, rfl⟩
      | [r], _ =>
        refine Or.inr ⟨r, rfl, hgood r (by simp), ?_, ?_⟩
        · simp [countSum]
        · rw [allTargets_cons, allTargets_nil, List.append_nil]

/-! ### The initial padded pool and `build_huffman_tree` -/

theorem build_unfold (d : List (String × Int)) (symbols : List String)
    (hs : symbols.Nodup) (h2 : 2 ≤ symbols.length) :
    build_huffman_tree d symbols =
      (merge_nodes
        (d.map (fun tc => Node.mk tc.2 (some tc.1) []) ++
          List.replicate (1 + ((symbols.length : Int) - 1) *
            ceil_div ((d.length : Int) - 1) ((symbols.length : Int) - 1) -
            (d.length : Int)).toNat (Node.mk 0 none []))
        symbols.length).map (fun r => Except.ok r) := by
  unfold build_huffman_tree
  rw [if_neg (by simp [hs.dedup])]
  rw [calculate_padding_eq (by exact_mod_cast h2)]

theorem pool_countSum (d : List (String × Int)) (p : Nat) :
    countSum (d.map (fun tc => Node.mk tc.2 (some tc.1) []) ++
      List.replicate p (Node.mk 0 none [])) = (d.map (fun tc => tc.2)).sum := by
  rw [countSum_append]
  have h1 : countSum (d.map (fun tc => Node.mk tc.2 (some tc.1) [])) =
      (d.map (fun tc => tc.2)).sum := by
    simp [countSum, List.map_map, Function.comp_def, Node.count]
  have hr : countSum (List.replicate p (Node.mk 0 none [])) = 0 := by
    simp [countSum, Node.count]
  rw [h1, hr, add_zero]

theorem pool_targets (d : List (String × Int)) (p : Nat) :
    allTargets (d.map (fun tc => Node.mk tc.2 (some tc.1) []) ++
      List.replicate p (Node.mk 0 none [])) = d.map Prod.fst := by
  rw [allTargets_append]
  have h1 : allTargets (d.map (fun tc => Node.mk tc.2 (some tc.1) [])) =
      d.map Prod.fst := by
    induction d with
    | nil => rfl
    | cons e rest ih =>
      rw [List.map_cons, allTargets_cons, targetsList_some, allTargets_nil,
        List.map_cons, ih]
      rfl
  have hr : allTargets (List.replicate p (Node.mk 0 none [])) = [] := by
    induction p with
    | zero => rfl
    | succ p ih =>
      rw [List.replicate_succ, allTargets_cons, targetsList_none,
        allTargets_nil, ih]
      rfl
  rw [h1, hr, List.append_nil]

theorem pool_good (d : List (String × Int)) (p : Nat) (L : Nat) :
    ∀ n, n ∈ d.map (fun tc => Node.mk tc.2 (some tc.1) []) ++
      List.replicate p (Node.mk 0 none []) → Good L n := by
  intro n hn
  rcases List.mem_append.mp hn with h | h
  · obtain ⟨tc, _, rfl⟩ := List.mem_map.mp h
    exact Good.leaf _ _
  · rw [List.eq_of_mem_replicate h]
    exact Good.leaf _ _

theorem build_master (d : List (String × Int)) (symbols : List String)
    (hs : symbols.Nodup) (h2 : 2 ≤ symbols.length) :
    (d = [] ∧ symbols.length = 2 ∧
      build_huffman_tree d symbols = some (Except.ok none)) ∨
    (∃ r, build_huffman_tree d symbols = some (Except.ok (some r)) ∧
      Good symbols.length r ∧
      r.count = (d.map (fun tc => tc.2)).sum ∧
      (targetsList r).Perm (d.map Prod.fst)) := by
  have hZ : (2 : Int) ≤ (symbols.length : Int) := by exact_mod_cast h2
  rw [build_unfold d symbols hs h2]
  by_cases hd : d = []
  · subst hd
    by_cases hL3 : 3 ≤ symbols.length
    · have hb2 : (2 : Int) ≤ (symbols.length : Int) - 1 := by
        have h3 : (3 : Int) ≤ (symbols.length : Int) := by exact_mod_cast hL3
        omega
      have hnbp : ceil_div ((([] : List (String × Int)).length : Int) - 1)
          ((symbols.length : Int) - 1) = 0 := by
        rw [show ((([] : List (String × Int)).length : Int) - 1) = (-1 : Int) by simp]
        exact ceil_div_neg_one hb2
      refine Or.inr ⟨Node.mk 0 none [], ?_, Good.leaf _ _, by simp [Node.count], ?_⟩
      · rw [hnbp]
        norm_num
        rfl
      · rw [targetsList_none, allTargets_nil]
        simp
    · have hL2 : symbols.length = 2 := by omega
      refine Or.inl ⟨rfl, hL2, ?_⟩
      rw [hL2]
      rfl
  · have hd1 : 1 ≤ d.length := List.length_pos.mpr hd
    have hZne : (1 : Int) ≤ (d.length : Int) := by exact_mod_cast hd1
    have hb1 : (0 : Int) < (symbols.length : Int) - 1 := by omega
    have hnbp0 : 0 ≤ ceil_div ((d.length : Int) - 1) ((symbols.length : Int) - 1) :=
      ceil_div_nonneg (by omega) hb1
    have hpad0 : 0 ≤ 1 + ((symbols.length : Int) - 1) *
        ceil_div ((d.length : Int) - 1) ((symbols.length : Int) - 1) -
        (d.length : Int) := num_padding_nonneg hZne hZ
    set c := ceil_div ((d.length : Int) - 1) ((symbols.length : Int) - 1) with hc
    set pad := 1 + ((symbols.length : Int) - 1) * c - (d.length : Int) with hpadDef
    set pool := d.map (fun tc => Node.mk tc.2 (some tc.1) []) ++
      List.replicate pad.toNat (Node.mk 0 none []) with hpool
    have hlenNodes : pool.length = 1 + (symbols.length - 1) * c.toNat := by
      rw [hpool]
      simp only [List.length_append, List.length_map, List.length_replicate]
      zify [show 1 ≤ symbols.length by omega]
      rw [Int.toNat_of_nonneg hpad0, Int.toNat_of_nonneg hnbp0, hpadDef]
      ring
    obtain ⟨res, hres, hprops⟩ := mergeLoop_master h2 pool.length pool
      (by omega) (Or.inr ⟨c.toNat, hlenNodes⟩) (by rw [hpool]; exact pool_good d _ _)
    rcases hprops with ⟨hre, hle⟩ | ⟨r, hr, hgr, hcr, htr⟩
    · exfalso
      rw [hpool] at hle
      rcases List.append_eq_nil.mp hle with ⟨hmap, _⟩
      exact hd (List.map_eq_nil_iff.mp hmap)
    · refine Or.inr ⟨r, ?_, hgr, ?_, ?_⟩
      · unfold merge_nodes
        rw [hres, hr]
        rfl
      · rw [hcr, hpool, pool_countSum]
      · have hpt : allTargets pool = d.map Prod.fst := by
          rw [hpool]
          exact pool_targets d _
        rw [hpt] at htr
        exact htr

/-! ### Induction over trees, membership in `Node.nodes` -/

theorem Node.ind_all (motive : Node → Prop)
    (mk : ∀ c t ch, (∀ x, x ∈ ch → motive x) → motive (Node.mk c t ch)) :
    ∀ n, motive n := fun n =>
  match n with
  | .mk c t ch => mk c t ch (fun x hx => Node.ind_all motive mk x)
termination_by n => sizeOf n
decreasing_by
  have h1 := List.sizeOf_lt_of_mem hx
  simp only [Node.mk.sizeOf_spec]
  omega

theorem mem_nodesList {x : Node} : ∀ {l : List Node},
    x ∈ nodesList l ↔ ∃ c, c ∈ l ∧ x ∈ Node.nodes c := by
  intro l
  induction l with
  | nil => simp [nodesList]
  | cons c rest ih =>
    rw [nodesList]
    simp only [List.mem_append, ih]
    constructor
    · rintro (h | ⟨c', hc', hx⟩)
      · exact ⟨c, List.mem_cons_self c rest, h⟩
      · exact ⟨c', List.mem_cons_of_mem c hc', hx⟩
    · rintro ⟨c', hc', hx⟩
      rcases List.mem_cons.mp hc' with rfl | hc''
      · exact Or.inl hx
      · exact Or.inr ⟨c', hc'', hx⟩

theorem self_mem_nodes (n : Node) : n ∈ Node.nodes n := by
  cases n with
  | mk c t ch =>
    rw [Node.nodes]
    exact List.mem_cons_self _ _

theorem nodes_subset_child {c : Int} {t : Option String} {ch : List Node}
    {y : Node} (hy : y ∈ ch) {x : Node} (hx : x ∈ Node.nodes y) :
    x ∈ Node.nodes (Node.mk c t ch) := by
  rw [Node.nodes]
  exact List.mem_cons.mpr (Or.inr (mem_nodesList.mpr ⟨y, hy, hx⟩))

theorem targets_subset_child {c : Int} {t : Option String} {ch : List Node}
    {y : Node} (hy : y ∈ ch) {s : String} (hs : s ∈ targetsList y) :
    s ∈ targetsList (Node.mk c t ch) := by
  rw [targetsList, List.mem_filterMap] at hs ⊢
  obtain ⟨x, hx, hxt⟩ := hs
  exact ⟨x, nodes_subset_child hy hx, hxt⟩

theorem self_target_mem {c : Int} {ch : List Node} {s : String} :
    s ∈ targetsList (Node.mk c (some s) ch) := by
  rw [targetsList, List.mem_filterMap]
  exact ⟨Node.mk c (some s) ch, self_mem_nodes _, rfl⟩

theorem good_nodes {nb : Nat} {n : Node} (hg : Good nb n) :
    ∀ x, x ∈ Node.nodes n → Good nb x := by
  induction hg with
  | leaf c t =>
    intro x hx
    rw [Node.nodes] at hx
    rcases List.mem_cons.mp hx with rfl | hx'
    · exact Good.leaf _ _
    · rw [show nodesList [] = [] from rfl] at hx'
      exact absurd hx' (List.not_mem_nil x)
  | branch c children hlen hall ih =>
    intro x hx
    rw [Node.nodes] at hx
    rcases List.mem_cons.mp hx with rfl | hx'
    · exact Good.branch c children hlen hall
    · obtain ⟨y, hy, hxy⟩ := mem_nodesList.mp hx'
      exact ih y hy x hxy

theorem good_shape {nb : Nat} {n : Node} (hg : Good nb n) :
    (n.children = [] ∨ n.children.length = nb) ∧
      (n.target.isSome → n.children = []) := by
  cases hg with
  | leaf c t => exact ⟨Or.inl rfl, fun _ => rfl⟩
  | branch c ch hlen hall =>
    refine ⟨Or.inr hlen, fun hsome => ?_⟩
    simp [Node.target] at hsome

/-! ### Association-list lookup -/

theorem lookup_isSome_of_mem_keys {d : List (String × Int)} {t : String}
    (h : t ∈ d.map Prod.fst) : (List.lookup t d).isSome = true := by
  induction d with
  | nil => simp at h
  | cons e rest ih =>
    by_cases he : t = e.1
    · simp [List.lookup, he]
    · have hb : (t == e.1) = false := by simp [he]
      obtain ⟨p, q⟩ := e
      rw [List.map_cons] at h
      rcases List.mem_cons.mp h with h' | h'
      · exact absurd h' he
      · simp only [List.lookup, hb]
        exact ih h'

theorem lookup_eq_of_mem_nodup {d : List (String × Int)}
    (hnd : (d.map Prod.fst).Nodup) {t : String} {c : Int}
    (h : (t, c) ∈ d) : List.lookup t d = some c := by
  induction d with
  | nil => simp at h
  | cons e rest ih =>
    rw [List.map_cons] at hnd
    rcases List.mem_cons.mp h with rfl | hmem
    · simp [List.lookup]
    · have hne : (t == e.1) = false := by
        have hkey : t ∈ rest.map Prod.fst := List.mem_map.mpr ⟨(t, c), hmem, rfl⟩
        have hnotin := (List.nodup_cons.mp hnd).1
        simp only [beq_eq_false_iff_ne, ne_eq]
        intro heq
        rw [heq] at hkey
        exact hnotin hkey
      obtain ⟨p, q⟩ := e
      simp only [List.lookup, hne]
      exact ih (List.nodup_cons.mp hnd).2 hmem

/-! ### `traverse` computes a fold of dict assignments over `entriesOf` -/

theorem insertAll_nil (m : EncMap) : insertAll m [] = m := rfl

theorem insertAll_append (m : EncMap) (a b : EncMap) :
    insertAll m (a ++ b) = insertAll (insertAll m a) b := by
  simp [insertAll, List.foldl_append]

theorem insertAll_cons (m : EncMap) (e : List String × (String × Int))
    (es : EncMap) : insertAll m (e :: es) = insertAll (dict_set m e.1 e.2) es := rfl

theorem traverseChildren_fold (symbols : List String)
    (d : List (String × Int)) :
    ∀ (cs : List Node),
      (∀ x, x ∈ cs → ∀ (p : List String) (m : EncMap),
        traverseNode symbols d x p m = some (insertAll m (entriesOf symbols d x p))) →
      ∀ (i : Nat), i + cs.length ≤ symbols.length →
      ∀ (p : List String) (m : EncMap),
        traverseChildren symbols d cs i p m =
          some (insertAll m (entriesOfChildren symbols d cs i p)) := by
  intro cs
  induction cs with
  | nil =>
    intro _ i _ p m
    rw [traverseChildren, entriesOfChildren, insertAll_nil]
  | cons c rest ih =>
    intro hall i hlen p m
    have hidx : i < symbols.length := by
      rw [List.length_cons] at hlen
      omega
    rw [traverseChildren, List.getElem?_eq_getElem hidx]
    dsimp only
    rw [hall c (List.mem_cons_self c rest) (p ++ [symbols[i]]) m]
    dsimp only
    rw [ih (fun x hx => hall x (List.mem_cons_of_mem c hx)) (i + 1)
      (by rw [List.length_cons] at hlen; omega) p _]
    rw [entriesOfChildren]
    have hgd : symbols.getD i "" = symbols[i] := by
      rw [List.getD_eq_getElem?_getD, List.getElem?_eq_getElem hidx]
      rfl
    rw [hgd, insertAll_append]

theorem traverseNode_fold (symbols : List String) (d : List (String × Int)) :
    ∀ (n : Node),
      (∀ t, t ∈ targetsList n → (List.lookup t d).isSome = true) →
      (∀ x, x ∈ Node.nodes n → x.children.length ≤ symbols.length) →
      ∀ (p : List String) (m : EncMap),
        traverseNode symbols d n p m = some (insertAll m (entriesOf symbols d n p)) := by
  intro n
  induction n using Node.ind_all with
  | mk c t ch ih =>
    intro hT hA p m
    have harity : ch.length ≤ symbols.length := by
      have := hA (Node.mk c t ch) (self_mem_nodes _)
      simpa [Node.children] using this
    have hchild : ∀ x, x ∈ ch → ∀ (p' : List String) (m' : EncMap),
        traverseNode symbols d x p' m' =
          some (insertAll m' (entriesOf symbols d x p')) := by
      intro x hx
      exact ih x hx
        (fun t' ht' => hT t' (targets_subset_child hx ht'))
        (fun y hy => hA y (nodes_subset_child hx hy))
    cases t with
    | none =>
      rw [traverseNode]
      rw [traverseChildren_fold symbols d ch hchild 0 (by omega) p m]
      rw [entriesOf]
      rfl
    | some s =>
      have hsome : (List.lookup s d).isSome = true :=
        hT s self_target_mem
      obtain ⟨cnt, hcnt⟩ := Option.isSome_iff_exists.mp hsome
      rw [traverseNode, hcnt]
      show traverseChildren symbols d ch 0 p (dict_set m p (s, cnt)) =
        some (insertAll m (entriesOf symbols d (Node.mk c (some s) ch) p))
      rw [traverseChildren_fold symbols d ch hchild 0 (by omega) p _]
      rw [entriesOf, List.singleton_append, insertAll_cons, hcnt]
      rfl

/-! ### Structure of `entriesOf`: key shapes -/

theorem entriesOfChildren_extend_aux (symbols : List String)
    (d : List (String × Int)) :
    ∀ (cs : List Node),
      (∀ x, x ∈ cs → ∀ (p : List String) e, e ∈ entriesOf symbols d x p →
        ∃ s, e.1 = p ++ s) →
      ∀ (i : Nat) (p : List String) e,
        e ∈ entriesOfChildren symbols d cs i p →
        ∃ j s, i ≤ j ∧ j < i + cs.length ∧
          e.1 = p ++ symbols.getD j "" :: s := by
  intro cs
  induction cs with
  | nil =>
    intro _ i p e he
    rw [entriesOfChildren] at he
    exact absurd he (List.not_mem_nil e)
  | cons c rest ih =>
    intro hall i p e he
    rw [entriesOfChildren] at he
    rcases List.mem_append.mp he with h | h
    · obtain ⟨s, hse⟩ := hall c (List.mem_cons_self c rest)
        (p ++ [symbols.getD i ""]) e h
      refine ⟨i, s, le_refl i, by rw [List.length_cons]; omega, ?_⟩
      rw [hse, List.append_assoc]
      rfl
    · obtain ⟨j, s, hij, hjlt, hjs⟩ :=
        ih (fun x hx => hall x (List.mem_cons_of_mem c hx)) (i + 1) p e h
      refine ⟨j, s, by omega, ?_, hjs⟩
      rw [List.length_cons]
      omega

theorem entriesOf_extend (symbols : List String) (d : List (String × Int)) :
    ∀ (n : Node) (p : List String) e, e ∈ entriesOf symbols d n p →
      ∃ s, e.1 = p ++ s := by
  intro n
  induction n using Node.ind_all with
  | mk c t ch ih =>
    intro p e he
    cases t with
    | none =>
      rw [entriesOf, List.nil_append] at he
      obtain ⟨j, s, _, _, hjs⟩ :=
        entriesOfChildren_extend_aux symbols d ch ih 0 p e he
      exact ⟨symbols.getD j "" :: s, hjs⟩
    | some s =>
      rw [entriesOf] at he
      rcases List.mem_append.mp he with h | h
      · refine ⟨[], ?_⟩
        rw [List.mem_singleton.mp h, List.append_nil]
      · obtain ⟨j, s', _, _, hjs⟩ :=
          entriesOfChildren_extend_aux symbols d ch ih 0 p e h
        exact ⟨symbols.getD j "" :: s', hjs⟩

theorem entriesOfChildren_extend (symbols : List String)
    (d : List (String × Int)) (cs : List Node) (i : Nat) (p : List String)
    (e : List String × (String × Int))
    (he : e ∈ entriesOfChildren symbols d cs i p) :
    ∃ j s, i ≤ j ∧ j < i + cs.length ∧
      e.1 = p ++ symbols.getD j "" :: s :=
  entriesOfChildren_extend_aux symbols d cs
    (fun x _ => entriesOf_extend symbols d x) i p e he

/-! ### Prefix-freedom of the produced keys -/

theorem codeLE_discrim {p u v : List String} {a b : String} (hab : a ≠ b) :
    ¬ CodeLE (p ++ a :: u) (p ++ b :: v) := by
  rintro ⟨s, hsle⟩
  rw [List.append_assoc] at hsle
  have h2 := List.append_cancel_left hsle
  rw [List.cons_append] at h2
  injection h2 with h3 _
  exact hab h3

theorem entriesOfChildren_pairwise (symbols : List String)
    (hsym : symbols.Nodup) (d : List (String × Int)) :
    ∀ (cs : List Node),
      (∀ x, x ∈ cs → ∀ p, List.Pairwise
        (fun e1 e2 => ¬ CodeLE e1.1 e2.1 ∧ ¬ CodeLE e2.1 e1.1)
        (entriesOf symbols d x p)) →
      ∀ (i : Nat), i + cs.length ≤ symbols.length →
      ∀ (p : List String), List.Pairwise
        (fun e1 e2 => ¬ CodeLE e1.1 e2.1 ∧ ¬ CodeLE e2.1 e1.1)
        (entriesOfChildren symbols d cs i p) := by
  intro cs
  induction cs with
  | nil =>
    intro _ i _ p
    rw [entriesOfChildren]
    exact List.Pairwise.nil
  | cons c rest ih =>
    intro hall i hlen p
    rw [entriesOfChildren]
    rw [List.length_cons] at hlen
    refine List.pairwise_append.mpr ⟨hall c (List.mem_cons_self c rest) _,
      ih (fun x hx => hall x (List.mem_cons_of_mem c hx)) (i + 1) (by omega) p,
      ?_⟩
    intro e1 he1 e2 he2
    obtain ⟨u, hu⟩ := entriesOf_extend symbols d c (p ++ [symbols.getD i ""]) e1 he1
    obtain ⟨j, v, hij, hjlt, hjv⟩ :=
      entriesOfChildren_extend symbols d rest (i + 1) p e2 he2
    have hi : i < symbols.length := by omega
    have hj : j < symbols.length := by omega
    have hgi : symbols.getD i "" = symbols[i] := by
      rw [List.getD_eq_getElem?_getD, List.getElem?_eq_getElem hi]
      rfl
    have hgj : symbols.getD j "" = symbols[j] := by
      rw [List.getD_eq_getElem?_getD, List.getElem?_eq_getElem hj]
      rfl
    have hne : symbols.getD i "" ≠ symbols.getD j "" := by
      rw [hgi, hgj]
      intro heq
      have := hsym.getElem_inj_iff.mp heq
      omega
    have hu' : e1.1 = p ++ symbols.getD i "" :: u := by
      rw [hu, List.append_assoc]
      rfl
    rw [hu', hjv]
    exact ⟨codeLE_discrim hne, codeLE_discrim (Ne.symm hne)⟩

theorem entriesOf_pairwise (symbols : List String) (hsym : symbols.Nodup)
    (d : List (String × Int)) :
    ∀ {n : Node}, Good symbols.length n →
    ∀ (p : List String), List.Pairwise
      (fun e1 e2 => ¬ CodeLE e1.1 e2.1 ∧ ¬ CodeLE e2.1 e1.1)
      (entriesOf symbols d n p) := by
  intro n hg
  induction hg with
  | leaf c t =>
    intro p
    cases t with
    | none =>
      rw [entriesOf, entriesOfChildren]
      exact List.Pairwise.nil
    | some s =>
      rw [entriesOf, entriesOfChildren, List.append_nil]
      exact List.pairwise_singleton _ _
  | branch c children hlen hall ih =>
    intro p
    rw [entriesOf, List.nil_append]
    exact entriesOfChildren_pairwise symbols hsym d children
      (fun x hx p' => ih x hx p') 0 (by omega) p

/-! ### Values recorded by `entriesOf` -/

theorem entriesOfChildren_values_aux (symbols : List String)
    (d : List (String × Int)) :
    ∀ (cs : List Node),
      (∀ x, x ∈ cs → ∀ (p : List String),
        (entriesOf symbols d x p).map (fun e => e.2) =
          (targetsList x).map (fun t => (t, (List.lookup t d).getD 0))) →
      ∀ (i : Nat) (p : List String),
        (entriesOfChildren symbols d cs i p).map (fun e => e.2) =
          (allTargets cs).map (fun t => (t, (List.lookup t d).getD 0)) := by
  intro cs
  induction cs with
  | nil =>
    intro _ i p
    rw [entriesOfChildren, allTargets_nil]
    rfl
  | cons c rest ih =>
    intro hall i p
    rw [entriesOfChildren, allTargets_cons, List.map_append, List.map_append]
    rw [hall c (List.mem_cons_self c rest) _]
    rw [ih (fun x hx => hall x (List.mem_cons_of_mem c hx)) (i + 1) p]

theorem entriesOf_values (symbols : List String) (d : List (String × Int)) :
    ∀ (n : Node) (p : List String),
      (entriesOf symbols d n p).map (fun e => e.2) =
        (targetsList n).map (fun t => (t, (List.lookup t d).getD 0)) := by
  intro n
  induction n using Node.ind_all with
  | mk c t ch ih =>
    intro p
    cases t with
    | none =>
      rw [entriesOf, List.map_append]
      rw [entriesOfChildren_values_aux symbols d ch ih 0 p]
      rw [targetsList_none]
      rfl
    | some s =>
      rw [entriesOf, List.map_append]
      rw [entriesOfChildren_values_aux symbols d ch ih 0 p]
      rw [targetsList_some, List.map_cons]
      rfl

/-! ### Assembling the generated dict -/

theorem insertAll_fresh : ∀ (es : EncMap) (m : EncMap),
    (es.map Prod.fst).Nodup →
    (∀ k, k ∈ es.map Prod.fst → k ∉ m.map Prod.fst) →
    insertAll m es = m ++ es := by
  intro es
  induction es with
  | nil =>
    intro m _ _
    rw [insertAll_nil, List.append_nil]
  | cons e rest ih =>
    intro m hnd hfresh
    rw [insertAll_cons]
    have hnotm : e.1 ∉ m.map Prod.fst :=
      hfresh e.1 (by rw [List.map_cons]; exact List.mem_cons_self _ _)
    have hset : dict_set m e.1 e.2 = m ++ [e] := by
      rw [dict_set, if_neg hnotm]
    rw [hset]
    rw [List.map_cons] at hnd
    have h1 := (List.nodup_cons.mp hnd).1
    have h2 := (List.nodup_cons.mp hnd).2
    rw [ih (m ++ [e]) h2 ?fresh]
    · rw [List.append_assoc]
      rfl
    case fresh =>
      intro k hk
      rw [List.map_append]
      intro hmem
      rcases List.mem_append.mp hmem with hm | hsingle
      · exact hfresh k (by rw [List.map_cons]; exact List.mem_cons_of_mem _ hk) hm
      · rw [show ([e].map Prod.fst) = [e.1] from rfl] at hsingle
        rw [List.mem_singleton.mp hsingle] at hk
        exact h1 hk

theorem entries_keys_nodup (symbols : List String) (hsym : symbols.Nodup)
    (d : List (String × Int)) {n : Node} (hg : Good symbols.length n)
    (p : List String) :
    ((entriesOf symbols d n p).map Prod.fst).Nodup := by
  have hpw := entriesOf_pairwise symbols hsym d hg p
  have hne : List.Pairwise (fun e1 e2 => e1.1 ≠ e2.1) (entriesOf symbols d n p) := by
    refine hpw.imp ?_
    intro a b h heq
    exact h.1 ⟨[], by rw [List.append_nil, heq]⟩
  exact List.pairwise_map.mpr hne

theorem good_arity_le {symbols : List String} {root : Node}
    (hg : Good symbols.length root) :
    ∀ x, x ∈ Node.nodes root → x.children.length ≤ symbols.length := by
  intro x hx
  rcases (good_shape (good_nodes hg x hx)).1 with h | h
  · rw [h]
    exact Nat.zero_le _
  · rw [h]

theorem built_generate (d : List (String × Int)) (symbols : List String)
    (root : Node) (hsym : symbols.Nodup) (hg : Good symbols.length root)
    (ht : (targetsList root).Perm (d.map Prod.fst)) :
    generate_encoding_map_with_count root symbols d =
      some (entriesOf symbols d root []) := by
  unfold generate_encoding_map_with_count
  rw [traverseNode_fold symbols d root
    (fun t' ht' => lookup_isSome_of_mem_keys (ht.subset ht'))
    (good_arity_le hg) [] []]
  rw [insertAll_fresh (entriesOf symbols d root []) []
    (entries_keys_nodup symbols hsym d hg [])
    (fun k _ hk => List.not_mem_nil k hk)]
  rw [List.nil_append]

theorem build_root_props {d : List (String × Int)} {symbols : List String}
    {root : Node} (hsym : symbols.Nodup) (h2 : 2 ≤ symbols.length)
    (hb : build_huffman_tree d symbols = some (Except.ok (some root))) :
    Good symbols.length root ∧
    root.count = (d.map (fun tc => tc.2)).sum ∧
    (targetsList root).Perm (d.map Prod.fst) := by
  rcases build_master d symbols hsym h2 with ⟨_, _, hE⟩ | ⟨r, hE, hg, hc, ht⟩
  · rw [hb] at hE
    simp at hE
  · rw [hb] at hE
    simp only [Option.some.injEq, Except.ok.injEq] at hE
    rw [hE]
    exact ⟨hg, hc, ht⟩

theorem built_shape {symbols : List String} {root : Node}
    (hg : Good symbols.length root) : ShapeOK symbols.length root := by
  intro n hn
  exact ⟨good_arity_le hg n hn, (good_shape (good_nodes hg n hn)).2⟩

theorem nodup_iff_dedup_length {l : List String} :
    l.Nodup ↔ l.dedup.length = l.length := by
  constructor
  · intro h
    rw [h.dedup]
  · intro h
    have hsub : l.dedup.Sublist l := List.dedup_sublist l
    rw [← hsub.eq_of_length h]
    exact List.nodup_dedup l

theorem calculate_padding_error {ne nb : Int} {e : PyError}
    (h : calculate_padding ne nb = Except.error e) :
    e = PyError.zeroDivisionError := by
  unfold calculate_padding at h
  split at h
  · injection h with h1
    exact h1.symm
  · exact Except.noConfusion h

/-! ### The claims -/

/-- C1: for every frequency table with distinct targets and every
duplicate-free alphabet of at least two symbols, in the encoding map that
`generate_encoding_map_with_count` produces from the tree built by
`build_huffman_tree`, no code word is a prefix (initial segment) of a
distinct code word of the same map. -/
theorem built_encoding_map_antichain
    (count_dict : List (String × Int)) (symbols : List String) (root : Node)
    (m : EncMap)
    (hkeys : (count_dict.map Prod.fst).Nodup)
    (hsym : symbols.Nodup) (h2 : 2 ≤ symbols.length)
    (hb : build_huffman_tree count_dict symbols = some (Except.ok (some root)))
    (hm : generate_encoding_map_with_count root symbols count_dict = some m) :
    AntichainKeys m := by
  obtain ⟨hg, _, ht⟩ := build_root_props hsym h2 hb
  rw [built_generate count_dict symbols root hsym hg ht] at hm
  have hme := Option.some.inj hm
  rw [← hme]
  have hpw := entriesOf_pairwise symbols hsym count_dict hg []
  have hsymrel : Symmetric
      (fun (e1 e2 : List String × (String × Int)) =>
        ¬ CodeLE e1.1 e2.1 ∧ ¬ CodeLE e2.1 e1.1) :=
    fun a b h => ⟨h.2, h.1⟩
  intro e1 he1 e2 he2 hne
  exact (hpw.forall hsymrel he1 he2 (fun he => hne (by rw [he]))).1

/-- C2: for every frequency table and duplicate-free alphabet of at least
two symbols, every node of the tree returned by `build_huffman_tree` is
either childless or has exactly `symbols.length` children: every merge
step consumes exactly `num_branches` nodes. -/
theorem built_tree_internal_arity
    (count_dict : List (String × Int)) (symbols : List String) (root : Node)
    (hsym : symbols.Nodup) (h2 : 2 ≤ symbols.length)
    (hb : build_huffman_tree count_dict symbols = some (Except.ok (some root))) :
    InternalArity symbols.length root := by
  obtain ⟨hg, _, _⟩ := build_root_props hsym h2 hb
  intro n hn
  exact (good_shape (good_nodes hg n hn)).1

/-- C3: for every `num_elements ≥ 0` and `num_branches ≥ 2`,
`calculate_padding` returns
`num_branch_points = ⌈(num_elements - 1) / (num_branches - 1)⌉` (exact
rational ceiling) and
`num_padding = 1 + (num_branches - 1) * num_branch_points - num_elements`. -/
theorem calculate_padding_formula {ne nb : Int} (h0 : 0 ≤ ne) (h2 : 2 ≤ nb) :
    calculate_padding ne nb =
      Except.ok (⌈((ne : ℚ) - 1) / ((nb : ℚ) - 1)⌉,
        1 + (nb - 1) * ⌈((ne : ℚ) - 1) / ((nb : ℚ) - 1)⌉ - ne) := by
  rw [calculate_padding_eq h2]
  have hc : ceil_div (ne - 1) (nb - 1) = ⌈((ne : ℚ) - 1) / ((nb : ℚ) - 1)⌉ := by
    rw [ceil_div_eq_rat_ceil (by omega)]
    push_cast
    rfl
  rw [hc]

/-- C4: for every frequency table with distinct targets and duplicate-free
alphabet of at least two symbols, the encoding map produced from the built
tree succeeds and its values are exactly the `(target, original count)`
pairs of the frequency table, one entry per distinct target. -/
theorem built_encoding_map_entries
    (count_dict : List (String × Int)) (symbols : List String) (root : Node)
    (hkeys : (count_dict.map Prod.fst).Nodup)
    (hsym : symbols.Nodup) (h2 : 2 ≤ symbols.length)
    (hb : build_huffman_tree count_dict symbols = some (Except.ok (some root))) :
    ∃ m, generate_encoding_map_with_count root symbols count_dict = some m ∧
      (m.map (fun e => e.2)).Perm count_dict := by
  obtain ⟨hg, _, ht⟩ := build_root_props hsym h2 hb
  refine ⟨entriesOf symbols count_dict root [],
    built_generate count_dict symbols root hsym hg ht, ?_⟩
  rw [entriesOf_values]
  refine (ht.map (fun t => (t, (List.lookup t count_dict).getD 0))).trans ?_
  rw [List.map_map]
  have hid : count_dict.map
      ((fun t => (t, (List.lookup t count_dict).getD 0)) ∘ Prod.fst) =
      count_dict.map id := by
    apply List.map_congr_left
    intro e he
    have hl : List.lookup e.1 count_dict = some e.2 :=
      lookup_eq_of_mem_nodup hkeys he
    simp [Function.comp_def, hl]
  rw [hid, List.map_id]

/-- C5: for every non-empty frequency table with distinct targets and
every duplicate-free alphabet of at least two symbols,
`build_huffman_tree` returns a root whose count is the sum of all counts
of the table (padding leaves contribute zero). -/
theorem built_root_weight_sum
    (count_dict : List (String × Int)) (symbols : List String)
    (hne : count_dict ≠ [])
    (hkeys : (count_dict.map Prod.fst).Nodup)
    (hsym : symbols.Nodup) (h2 : 2 ≤ symbols.length) :
    ∃ root, build_huffman_tree count_dict symbols =
        some (Except.ok (some root)) ∧
      root.count = (count_dict.map (fun tc => tc.2)).sum := by
  rcases build_master count_dict symbols hsym h2 with ⟨hd, _, _⟩ |
    ⟨r, hE, _, hc, _⟩
  · exact absurd hd hne
  · exact ⟨r, hE, hc⟩

/-- C6 (amended): for every frequency table, building a tree with an
alphabet of exactly one symbol fails with the division-by-zero error
raised by the padding formula (the spec's `InvalidConfiguration`).
Alphabets of size zero need not fail: the counterexample below shows a
one-entry table over the empty alphabet returning a leaf tree with no
error, so the claim's universal statement over all alphabets of size
below two does not hold. -/
theorem single_symbol_zero_division_error
    (count_dict : List (String × Int)) (s : String) :
    build_huffman_tree count_dict [s] =
      some (Except.error PyError.zeroDivisionError) := by
  unfold build_huffman_tree
  rw [if_neg (by simp)]
  rw [show calculate_padding (count_dict.length : Int)
      ((([s] : List String).length : Nat) : Int) =
      Except.error PyError.zeroDivisionError from by
    unfold calculate_padding
    rw [if_pos (by simp)]]

/-- C6 counterexample: with an alphabet of size zero (below two) and a
one-entry table, `build_huffman_tree` raises nothing and returns a tree,
refuting the claim for all alphabets of size below two. -/
theorem empty_alphabet_one_target_no_error :
    build_huffman_tree [("x", 1)] [] =
      some (Except.ok (some (Node.mk 1 (some "x") []))) := rfl

/-- C7: `build_huffman_tree` reports the duplicate-symbol `ValueError`
exactly when the symbols list has a repeated symbol, and it does so for
every frequency table alike (the check precedes all tree work, so the
result does not depend on the table). -/
theorem duplicate_symbols_value_error_iff
    (count_dict : List (String × Int)) (symbols : List String) :
    (build_huffman_tree count_dict symbols =
      some (Except.error PyError.valueError) ↔ ¬ symbols.Nodup) := by
  constructor
  · intro h hnd
    unfold build_huffman_tree at h
    rw [if_neg (by simp [hnd.dedup])] at h
    rcases hcp : calculate_padding (count_dict.length : Int)
        ((symbols.length : Nat) : Int) with e | ⟨p1, p2⟩
    · rw [hcp] at h
      have he := calculate_padding_error hcp
      rw [he] at h
      have := Option.some.inj h
      injection this with hz
      exact PyError.noConfusion hz
    · rw [hcp] at h
      dsimp only at h
      rcases hm : merge_nodes (count_dict.map (fun tc => Node.mk tc.2 (some tc.1) []) ++
          List.replicate p2.toNat (Node.mk 0 none [])) symbols.length with _ | r
      · rw [hm] at h
        exact Option.noConfusion h
      · rw [hm] at h
        have := Option.some.inj h
        exact Except.noConfusion this
  · intro hdup
    unfold build_huffman_tree
    rw [if_pos (fun heq => hdup (nodup_iff_dedup_length.mpr heq.symm))]

/-- C8 (amended): `calculate_padding (0, num_branches)` returns
`(num_branch_points, num_padding) = (0, 1)` for every
`num_branches ≥ 3`, and is not an error; for `num_branches = 2` it
instead returns `(-1, 0)` (see the counterexample). -/
theorem padding_zero_elements_three_le {nb : Int} (h3 : 3 ≤ nb) :
    calculate_padding 0 nb = Except.ok (0, 1) := by
  rw [calculate_padding_eq (by omega)]
  rw [show ((0 : Int) - 1) = (-1 : Int) by ring]
  rw [ceil_div_neg_one (by omega)]
  norm_num

/-- C8 counterexample: at `num_elements = 0`, `num_branches = 2` the
source computes `ceil(-1 / 1) = -1` branch points and `0` padding, not
`(0, 1)` as claimed. -/
theorem padding_zero_elements_two_branches :
    calculate_padding 0 2 = Except.ok (-1, 0) ∧
    calculate_padding 0 2 ≠ Except.ok (0, 1) := by
  constructor
  · rfl
  · intro h
    rw [show calculate_padding 0 2 = Except.ok (-1, 0) from rfl] at h
    have := Except.ok.inj h
    have h1 := congrArg Prod.fst this
    exact absurd h1 (by decide)

/-- C9 (amended): for every duplicate-free alphabet of at least three
symbols, `build_huffman_tree` on the empty frequency table returns a tree
whose root carries no target, and the encoding map generated from it is
empty.  For an alphabet of exactly two symbols no root node is produced
at all (see the counterexample). -/
theorem empty_table_three_le_symbols (symbols : List String)
    (hsym : symbols.Nodup) (h3 : 3 ≤ symbols.length) :
    ∃ root, build_huffman_tree [] symbols = some (Except.ok (some root)) ∧
      root.target = none ∧
      generate_encoding_map_with_count root symbols [] = some [] := by
  rcases build_master [] symbols hsym (by omega) with ⟨_, hL2, _⟩ |
    ⟨r, hE, hg, _, ht⟩
  · omega
  · have htl : targetsList r = [] := by
      have hnil : (([] : List (String × Int)).map Prod.fst) = [] := rfl
      rw [hnil] at ht
      exact ht.eq_nil
    refine ⟨r, hE, ?_, ?_⟩
    · cases r with
      | mk c t ch =>
        cases t with
        | none => rfl
        | some s =>
          exfalso
          have hmem : s ∈ targetsList (Node.mk c (some s) ch) := self_target_mem
          rw [htl] at hmem
          exact List.not_mem_nil s hmem
    · rw [built_generate [] symbols r hsym hg ht]
      have hv := entriesOf_values symbols [] r []
      rw [htl] at hv
      have hnil : entriesOf symbols [] r [] = [] :=
        List.map_eq_nil_iff.mp (by rw [hv]; rfl)
      rw [hnil]

/-- C9 counterexample: with the two-symbol alphabet, the empty frequency
table gets zero padding, the node pool is empty, and `merge_nodes`
returns no root node at all (Python `None`), so no tree with a root is
produced and the traversal cannot be run on it. -/
theorem empty_table_two_symbols_no_root :
    build_huffman_tree [] ["a", "b"] = some (Except.ok none) := rfl

/-- C10: every node of a tree built from a duplicate-free alphabet of at
least two symbols has at most `symbols.length` children and target
leaves are childless, so when the map generator walks the tree with the
same symbols list every child index is in range, every target is a key
of the table, and the traversal returns a map rather than an error. -/
theorem built_traversal_safe
    (count_dict : List (String × Int)) (symbols : List String) (root : Node)
    (hsym : symbols.Nodup) (h2 : 2 ≤ symbols.length)
    (hb : build_huffman_tree count_dict symbols = some (Except.ok (some root))) :
    ShapeOK symbols.length root ∧
    ∃ m, generate_encoding_map_with_count root symbols count_dict = some m := by
  obtain ⟨hg, _, ht⟩ := build_root_props hsym h2 hb
  exact ⟨built_shape hg,
    ⟨entriesOf symbols count_dict root [],
      built_generate count_dict symbols root hsym hg ht⟩⟩

/-! ### Witnesses: the claim theorems applied at concrete inputs -/

/-- Witness for C1: the encoding map of `sampleTable` over the binary
alphabet is prefix-free. -/
theorem built_encoding_map_antichain_witness : AntichainKeys sampleMap :=
  built_encoding_map_antichain sampleTable sampleSymbols sampleRoot sampleMap
    (by decide) (by decide) (by norm_num [sampleSymbols]) rfl rfl

/-- Witness for C2: every node of the sample tree is childless or binary. -/
theorem built_tree_internal_arity_witness : InternalArity 2 sampleRoot :=
  built_tree_internal_arity sampleTable sampleSymbols sampleRoot
    (by decide) (by norm_num [sampleSymbols]) rfl

/-- Witness for C3: the two concrete padding evaluations named by the
spec, `(5, 3) ↦ (2, 0)` and `(4, 3) ↦ (2, 1)`. -/
theorem calculate_padding_formula_witness :
    calculate_padding 5 3 = Except.ok (2, 0) ∧
    calculate_padding 4 3 = Except.ok (2, 1) := by
  have h1 := @calculate_padding_formula 5 3 (by norm_num) (by norm_num)
  have h2 := @calculate_padding_formula 4 3 (by norm_num) (by norm_num)
  have e2 : ⌈(3 / 2 : ℚ)⌉ = 2 :=
    le_antisymm (Int.ceil_le.mpr (by norm_num)) (Int.le_ceil_iff.mpr (by norm_num))
  norm_num at h1 h2
  rw [e2] at h2
  norm_num at h2
  exact ⟨h1, h2⟩

/-- Witness for C4: the sample map's values are exactly the sample table. -/
theorem built_encoding_map_entries_witness :
    (sampleMap.map (fun e => e.2)).Perm sampleTable := by
  obtain ⟨m, hm, hp⟩ := built_encoding_map_entries sampleTable sampleSymbols
    sampleRoot (by decide) (by decide) (by norm_num [sampleSymbols]) rfl
  have hgen : generate_encoding_map_with_count sampleRoot sampleSymbols
      sampleTable = some sampleMap := rfl
  rw [hm] at hgen
  rw [← Option.some.inj hgen]
  exact hp

/-- Witness for C5: the sample root's weight is `1 + 2 + 3 = 6`. -/
theorem built_root_weight_sum_witness :
    sampleRoot.count = (sampleTable.map (fun tc => tc.2)).sum := by
  obtain ⟨root, hb, hc⟩ := built_root_weight_sum sampleTable sampleSymbols
    (by decide) (by decide) (by decide) (by norm_num [sampleSymbols])
  have hb2 : build_huffman_tree sampleTable sampleSymbols =
      some (Except.ok (some sampleRoot)) := rfl
  rw [hb] at hb2
  have h1 := Option.some.inj (Except.ok.inj (Option.some.inj hb2))
  rw [← h1]
  exact hc

/-- Witness for C8 (amended): at three branches the padding of the empty
table is `(0, 1)`. -/
theorem padding_zero_elements_three_le_witness :
    calculate_padding 0 3 = Except.ok (0, 1) :=
  padding_zero_elements_three_le (by norm_num)

/-- Witness for C9 (amended): over a three-symbol alphabet the empty
table yields the single padding root and an empty map. -/
theorem empty_table_three_le_symbols_witness :
    (Node.mk 0 none []).target = none ∧
    generate_encoding_map_with_count (Node.mk 0 none []) ["a", "b", "c"] [] =
      some [] := by
  obtain ⟨root, hb, hT, hgen⟩ := empty_table_three_le_symbols ["a", "b", "c"]
    (by decide) (by norm_num)
  have hb2 : build_huffman_tree [] ["a", "b", "c"] =
      some (Except.ok (some (Node.mk 0 none []))) := rfl
  rw [hb] at hb2
  have h1 := Option.some.inj (Except.ok.inj (Option.some.inj hb2))
  rw [h1] at hT hgen
  exact ⟨hT, hgen⟩

/-- Witness for C10: the sample tree is traversal-safe for its alphabet. -/
theorem built_traversal_safe_witness : ShapeOK 2 sampleRoot ∧
    generate_encoding_map_with_count sampleRoot sampleSymbols sampleTable =
      some sampleMap := by
  obtain ⟨hshape, m, hm⟩ := built_traversal_safe sampleTable sampleSymbols
    sampleRoot (by decide) (by norm_num [sampleSymbols]) rfl
  exact ⟨hshape, rfl⟩
